import Mathlib

/-!
Verification of the schedsim plotting harness (`get_data.py`).

The harness is embedded shallowly:

* Raw simulator output (the bytes captured by `subprocess.check_output`) is a
  `List Char` of byte-sized characters.
* `pyStrOfBytes` models Python's `str(bytes_object)`, i.e. the `repr` of a
  bytes object: a leading `b`, a quote, every byte escaped as Python does
  (`\\`, `\t`, `\n`, `\r`, the quote character, printable bytes verbatim,
  `\xHH` otherwise), and a closing quote.  The delimiting quote is `'` unless
  the bytes contain `'` and no `"`.
* `split2 a b` models Python's `str.split` with the two-character separator
  `"\t"` (a backslash followed by `t`, which is what the source code passes,
  since the backslash escape is written inside an ordinary string literal);
  `split1 c` models `str.split` with a one-character separator.
* `pyFloatParse` models Python's `float(string)` constructor: optional
  whitespace, optional sign, `inf`/`infinity`/`nan` case-insensitively, or a
  decimal literal with optional fractional part, exponent and underscore
  digit separators.  Real arithmetic is idealised over `ℚ`; the special
  values are the extra constructors of `PyFloat`.
* The external simulator is an oracle `SimArgs → Except Unit (List Char)`:
  `.error ()` models a process that could not be started or exited with a
  nonzero status (`subprocess.check_output` raises in both cases),
  `.ok out` models a successful run whose captured stdout is `out`.
* `sweepLoop`/`process` mirror the `process(mu)` function of the source:
  the fixed grid `lambdas`, one invocation per arrival rate, fail-fast
  propagation of invocation and parse errors, the `load.append(l/mu)` and
  `performance.append(float(...))` accumulators, and the final
  `performance = [float(i) for i in performance]` re-conversion.
-/

namespace SchedSim

/-! ## Python `float(str)` semantics -/

/-- Python floats idealised: finite values are exact rationals, plus the
infinities and `nan` that `float("inf")`/`float("nan")` produce. -/
inductive PyFloat where
  | finite : ℚ → PyFloat
  | pinf : PyFloat
  | ninf : PyFloat
  | nan : PyFloat
deriving DecidableEq, Repr

/-- ASCII decimal digit test. -/
def isDigitC (c : Char) : Bool := '0' ≤ c && c ≤ '9'

/-- Whitespace stripped by Python `float()` (ASCII part). -/
def isWsC (c : Char) : Bool :=
  c = ' ' || c = '\t' || c = '\n' || c = '\x0d' || c = '\x0b' || c = '\x0c'

/-- Drop trailing whitespace. -/
def dropTrailWs : List Char → List Char
  | [] => []
  | c :: rest =>
    match dropTrailWs rest with
    | [] => if isWsC c then [] else [c]
    | r => c :: r

/-- Strip leading and trailing whitespace, as `float()` does. -/
def stripWs (s : List Char) : List Char := dropTrailWs (s.dropWhile isWsC)

/-- Numeric value of a digit character. -/
def digitVal (c : Char) : ℕ := c.toNat - 48

/-- Continue a digit part after its first digit: further digits, with single
underscores allowed between digits (PEP 515).  Returns the digits consumed
(underscores removed) and the unconsumed remainder. -/
def digitPartCont : List Char → List Char × List Char
  | [] => ([], [])
  | [c] => if isDigitC c then ([c], []) else ([], [c])
  | c :: d :: rest =>
    if isDigitC c then
      let p := digitPartCont (d :: rest)
      (c :: p.1, p.2)
    else if c = '_' then
      if isDigitC d then
        let p := digitPartCont rest
        (d :: p.1, p.2)
      else ([], c :: d :: rest)
    else ([], c :: d :: rest)

/-- A digit part must start with a digit; returns its digits and the rest. -/
def digitPart? : List Char → Option (List Char × List Char)
  | [] => none
  | c :: rest =>
    if isDigitC c then
      let p := digitPartCont rest
      some (c :: p.1, p.2)
    else none

/-- Value of a digit string. -/
def digitsToNat (ds : List Char) : ℕ := ds.foldl (fun a c => 10 * a + digitVal c) 0

/-- Parse the mantissa of a Python float literal
(`digitpart ["." [digitpart]] | "." digitpart`), returning its exact value. -/
def parseMantissa (s : List Char) : Option (ℚ × List Char) :=
  match digitPart? s with
  | some (ds, r) =>
    match r with
    | [] => some ((digitsToNat ds : ℚ), [])
    | c :: r2 =>
      if c = '.' then
        match digitPart? r2 with
        | some (fs, r3) =>
          some ((digitsToNat ds : ℚ) + (digitsToNat fs : ℚ) / (10 : ℚ) ^ fs.length, r3)
        | none => some ((digitsToNat ds : ℚ), r2)
      else some ((digitsToNat ds : ℚ), c :: r2)
  | none =>
    match s with
    | [] => none
    | c :: r2 =>
      if c = '.' then
        match digitPart? r2 with
        | some (fs, r3) =>
          some ((digitsToNat fs : ℚ) / (10 : ℚ) ^ fs.length, r3)
        | none => none
      else none

/-- Parse an optional exponent (`e`/`E`, optional sign, digit part). -/
def parseExpPart : List Char → Option (ℤ × List Char)
  | [] => some (0, [])
  | c :: rest =>
    if c = 'e' || c = 'E' then
      match rest with
      | [] => none
      | s :: rest2 =>
        if s = '+' then
          (digitPart? rest2).map fun p => ((digitsToNat p.1 : ℤ), p.2)
        else if s = '-' then
          (digitPart? rest2).map fun p => (-(digitsToNat p.1 : ℤ), p.2)
        else
          (digitPart? rest).map fun p => ((digitsToNat p.1 : ℤ), p.2)
    else some (0, c :: rest)

/-- Lower-case an ASCII letter. -/
def lowerC (c : Char) : Char :=
  if 'A' ≤ c && c ≤ 'Z' then Char.ofNat (c.toNat + 32) else c

/-- Case-insensitive exact match of a keyword. -/
def matchKw (kw s : List Char) : Bool := s.map lowerC == kw

/-- Parse body after whitespace stripping and sign extraction. -/
def pyFloatCore (neg : Bool) (u : List Char) : Option PyFloat :=
  if matchKw ['i', 'n', 'f'] u || matchKw ['i', 'n', 'f', 'i', 'n', 'i', 't', 'y'] u then
    some (if neg then PyFloat.ninf else PyFloat.pinf)
  else if matchKw ['n', 'a', 'n'] u then
    some PyFloat.nan
  else
    match parseMantissa u with
    | some (m, r) =>
      match parseExpPart r with
      | some (e, r2) =>
        if r2 = [] then
          some (PyFloat.finite ((if neg then -m else m) * (10 : ℚ) ^ e))
        else none
      | none => none
    | none => none

/-- Python `float(s)`: `some` of the parsed value, `none` on `ValueError`. -/
def pyFloatParse (s : List Char) : Option PyFloat :=
  match stripWs s with
  | [] => pyFloatCore false []
  | c :: r =>
    if c = '+' then pyFloatCore false r
    else if c = '-' then pyFloatCore true r
    else pyFloatCore false (c :: r)

/-- Python `float(x)` applied to a value that is already a float is the
identity. -/
def pyFloatOfFloat (x : PyFloat) : PyFloat := x

/-! ## Python `str(bytes)` (the `repr` of a bytes object) -/

/-- Lower-case hexadecimal digit. -/
def hexDigitC (n : ℕ) : Char :=
  if n < 10 then Char.ofNat (48 + n) else Char.ofNat (87 + n)

/-- Escape of one byte inside `repr(bytes)` with delimiting quote `d`. -/
def pyByteEsc (d : Char) (c : Char) : List Char :=
  if c = '\\' then ['\\', '\\']
  else if c = d then ['\\', d]
  else if c = '\t' then ['\\', 't']
  else if c = '\n' then ['\\', 'n']
  else if c = '\x0d' then ['\\', 'r']
  else if 32 ≤ c.toNat && c.toNat ≤ 126 then [c]
  else ['\\', 'x', hexDigitC (c.toNat / 16), hexDigitC (c.toNat % 16)]

/-- Delimiting quote chosen by `repr(bytes)`: a double quote exactly when the
bytes contain a single quote but no double quote. -/
def pyBytesDelim (s : List Char) : Char :=
  if '\'' ∈ s ∧ '"' ∉ s then '"' else '\''

/-- Python `str(b)` for a bytes object `b`: its `repr`, `b` + quote +
escaped bytes + quote. -/
def pyStrOfBytes (s : List Char) : List Char :=
  let d := pyBytesDelim s
  'b' :: d :: s.flatMap (pyByteEsc d) ++ [d]

/-! ## Python `str.split` -/

/-- Python `s.split(sep)` for a two-character separator `a ++ b`:
non-overlapping, leftmost-first. -/
def split2 (a b : Char) : List Char → List (List Char)
  | [] => [[]]
  | [c] => [[c]]
  | c :: d :: rest =>
    if c = a ∧ d = b then [] :: split2 a b rest
    else
      match split2 a b (d :: rest) with
      | [] => [[c]]
      | f :: fs => (c :: f) :: fs

/-- Python `s.split(sep)` for a one-character separator. -/
def split1 (a : Char) : List Char → List (List Char)
  | [] => [[]]
  | c :: rest =>
    if c = a then [] :: split1 a rest
    else
      match split1 a rest with
      | [] => [[c]]
      | f :: fs => (c :: f) :: fs

/-! ## The harness -/

/-- Error kinds of the harness (§7 of the spec): `invocationError` for a
process that could not be started or exited nonzero, `parseError` for output
without a parseable performance field (the uncaught `IndexError` on the
field selection and `ValueError` from `float` both abort at the parse step). -/
inductive SimError where
  | invocationError : SimError
  | parseError : SimError
deriving DecidableEq, Repr

/-- Command-line parameters of one simulator invocation:
`./schedsim --topo=0 --mu={mu} --lambda={l} --genType=3 --procType=0`. -/
structure SimArgs where
  topo : ℤ
  mu : ℚ
  lam : ℚ
  genType : ℤ
  procType : ℤ
deriving DecidableEq, Repr

/-- The argument record built for service rate `mu` and arrival rate `l`:
`topo = 0`, `genType = 3`, `procType = 0` are fixed constants of the source. -/
def mkArgs (mu l : ℚ) : SimArgs :=
  { topo := 0, mu := mu, lam := l, genType := 3, procType := 0 }

/-- The arrival-rate grid `[(i + 1)*0.001 for i in range(100)]`. -/
def lambdas : List ℚ := (List.range 100).map fun (i : ℕ) => ((i : ℚ) + 1) * (1 / 1000)

/-- The sequence of argument records a sweep for `mu` presents to the
simulator, one per arrival rate of the grid. -/
def argsOf (mu : ℚ) : List SimArgs := lambdas.map (mkArgs mu)

/-- Line 12 of the source applied to raw captured bytes:
`float(str(output).split("\t")[-2])`, where the split separator is the
two-character backslash-`t` string.  A missing index (`IndexError`, fewer
than two split fields) and an unparseable field (`ValueError`) both abort the
sweep; both are the harness's `ParseError`. -/
def parsePerf (raw : List Char) : Except SimError PyFloat :=
  let fields := split2 '\\' 't' (pyStrOfBytes raw)
  if fields.length < 2 then .error .parseError
  else
    match pyFloatParse (fields.getD (fields.length - 2) []) with
    | some v => .ok v
    | none => .error .parseError

/-- Modelled from the spec: the parser the specification describes (§4.3) —
split the raw output text on the tab character, take the second-to-last
field, parse it as a float; `ParseError` if fewer than two fields exist or
the field is not numeric.  Used to compare the code's behaviour against the
spec's words. -/
def specParse (raw : List Char) : Except SimError PyFloat :=
  let fields := split1 '\t' raw
  if fields.length < 2 then .error .parseError
  else
    match pyFloatParse (fields.getD (fields.length - 2) []) with
    | some v => .ok v
    | none => .error .parseError

/-- The `for l in lambdas` loop of `process(mu)`: one simulator invocation
per remaining arrival rate, `load.append(l/mu)` and
`performance.append(float(...))` on success, fail-fast `Except` propagation
on a failed invocation or parse. -/
def sweepLoop (sim : SimArgs → Except Unit (List Char)) (mu : ℚ) :
    List ℚ → List ℚ → List PyFloat → Except SimError (List ℚ × List PyFloat)
  | [], load, perf => .ok (load, perf)
  | l :: ls, load, perf =>
    match sim (mkArgs mu l) with
    | .error _ => .error .invocationError
    | .ok out =>
      match parsePerf out with
      | .error e => .error e
      | .ok v => sweepLoop sim mu ls (load ++ [l / mu]) (perf ++ [v])

/-- `process(mu)` of the source: run the sweep over the fixed grid and apply
the final `performance = [float(i) for i in performance]` re-conversion. -/
def process (sim : SimArgs → Except Unit (List Char)) (mu : ℚ) :
    Except SimError (List ℚ × List PyFloat) :=
  match sweepLoop sim mu lambdas [] [] with
  | .error e => .error e
  | .ok (load, perf) => .ok (load, perf.map pyFloatOfFloat)

/-- Whether a sweep result is a success. -/
def resultOk (e : Except SimError (List ℚ × List PyFloat)) : Bool :=
  match e with
  | .ok _ => true
  | .error _ => false

/-! ## Auxiliary notions used by the statements -/

/-- Fields joined by a separator (`sep.join(fields)` in Python terms); the
inverse of splitting for separator-free fields. -/
def joinSep (sep : List Char) : List (List Char) → List Char
  | [] => []
  | [f] => f
  | f :: g :: fs => f ++ sep ++ joinSep sep (g :: fs)

/-- A plain printable byte: printable ASCII, not a backslash, not a single
quote — bytes whose `repr` escape is themselves. -/
def plainChar (c : Char) : Bool :=
  32 ≤ c.toNat && c.toNat ≤ 126 && c ≠ '\\' && c ≠ '\''

/-! ## Lemmas about splitting and joining -/

theorem joinSep_cons (sep f : List Char) (gs : List (List Char)) (h : gs ≠ []) :
    joinSep sep (f :: gs) = f ++ sep ++ joinSep sep gs := by
  cases gs with
  | nil => exact absurd rfl h
  | cons g gs' => rfl

theorem mem_joinSep (sep : List Char) (gs : List (List Char)) (c : Char)
    (hc : c ∈ joinSep sep gs) : c ∈ sep ∨ ∃ g ∈ gs, c ∈ g := by
  induction gs with
  | nil => simp [joinSep] at hc
  | cons f gs' ih =>
    cases gs' with
    | nil =>
      simp [joinSep] at hc
      exact Or.inr ⟨f, by simp, hc⟩
    | cons g gs'' =>
      rw [joinSep] at hc
      simp only [List.mem_append] at hc
      rcases hc with (hc | hc) | hc
      · exact Or.inr ⟨f, by simp, hc⟩
      · exact Or.inl hc
      · rcases ih hc with h | ⟨g', hg', hcg'⟩
        · exact Or.inl h
        · exact Or.inr ⟨g', by simp [List.mem_cons] at hg' ⊢; tauto, hcg'⟩

theorem split2_nosep (a b : Char) (s : List Char) (h : ∀ c ∈ s, c ≠ a) :
    split2 a b s = [s] := by
  induction s with
  | nil => rfl
  | cons c rest ih =>
    cases rest with
    | nil => rfl
    | cons d rest' =>
      have hca : c ≠ a := h c (by simp)
      rw [split2, if_neg (by tauto), ih (fun x hx => h x (by simp [hx]))]

theorem split2_app (a b : Char) (s₁ s₂ : List Char) (h : ∀ c ∈ s₁, c ≠ a) :
    split2 a b (s₁ ++ a :: b :: s₂) = s₁ :: split2 a b s₂ := by
  induction s₁ with
  | nil => simp [split2]
  | cons c s₁' ih =>
    have hca : c ≠ a := h c (by simp)
    have ih' := ih (fun x hx => h x (by simp [hx]))
    cases s₁' with
    | nil =>
      have h1 : ([c] : List Char) ++ a :: b :: s₂ = c :: a :: b :: s₂ := rfl
      have h2 : split2 a b (a :: b :: s₂) = [] :: split2 a b s₂ := by
        rw [split2, if_pos ⟨rfl, rfl⟩]
      rw [h1, split2, if_neg (by tauto), h2]
    | cons e s₁'' =>
      have h1 : (c :: e :: s₁'') ++ a :: b :: s₂ = c :: e :: (s₁'' ++ a :: b :: s₂) := rfl
      have h2 : (e :: s₁'') ++ a :: b :: s₂ = e :: (s₁'' ++ a :: b :: s₂) := rfl
      rw [h2] at ih'
      rw [h1, split2, if_neg (by tauto), ih']

theorem split1_nosep (a : Char) (s : List Char) (h : ∀ c ∈ s, c ≠ a) :
    split1 a s = [s] := by
  induction s with
  | nil => rfl
  | cons c rest ih =>
    have hca : c ≠ a := h c (by simp)
    rw [split1, if_neg hca, ih (fun x hx => h x (by simp [hx]))]

theorem split1_app (a : Char) (s₁ s₂ : List Char) (h : ∀ c ∈ s₁, c ≠ a) :
    split1 a (s₁ ++ a :: s₂) = s₁ :: split1 a s₂ := by
  induction s₁ with
  | nil => simp [split1]
  | cons c s₁' ih =>
    have hca : c ≠ a := h c (by simp)
    have ih' := ih (fun x hx => h x (by simp [hx]))
    rw [List.cons_append, split1, if_neg hca, ih']

theorem split2_joinSep (a b : Char) (gs : List (List Char)) (hne : gs ≠ [])
    (h : ∀ g ∈ gs, ∀ c ∈ g, c ≠ a) :
    split2 a b (joinSep [a, b] gs) = gs := by
  induction gs with
  | nil => exact absurd rfl hne
  | cons f gs' ih =>
    cases gs' with
    | nil => exact (by rw [joinSep, split2_nosep a b f (h f (by simp))])
    | cons g gs'' =>
      rw [joinSep_cons _ _ _ (by simp)]
      have : f ++ [a, b] ++ joinSep [a, b] (g :: gs'') =
          f ++ a :: b :: joinSep [a, b] (g :: gs'') := by simp
      rw [this, split2_app a b f _ (h f (by simp)),
        ih (by simp) (fun g' hg' => h g' (by simp [List.mem_cons] at hg' ⊢; tauto))]

theorem split1_joinSep (a : Char) (gs : List (List Char)) (hne : gs ≠ [])
    (h : ∀ g ∈ gs, ∀ c ∈ g, c ≠ a) :
    split1 a (joinSep [a] gs) = gs := by
  induction gs with
  | nil => exact absurd rfl hne
  | cons f gs' ih =>
    cases gs' with
    | nil => exact (by rw [joinSep, split1_nosep a f (h f (by simp))])
    | cons g gs'' =>
      rw [joinSep_cons _ _ _ (by simp)]
      have : f ++ [a] ++ joinSep [a] (g :: gs'') =
          f ++ a :: joinSep [a] (g :: gs'') := by simp
      rw [this, split1_app a f _ (h f (by simp)),
        ih (by simp) (fun g' hg' => h g' (by simp [List.mem_cons] at hg' ⊢; tauto))]

/-! ## Lemmas about the bytes repr -/

theorem plainChar_spec (c : Char) (h : plainChar c = true) :
    32 ≤ c.toNat ∧ c.toNat ≤ 126 ∧ c ≠ '\\' ∧ c ≠ '\'' := by
  simp only [plainChar, Bool.and_eq_true, decide_eq_true_eq] at h
  tauto

theorem plainChar_ne_tab (c : Char) (h : plainChar c = true) : c ≠ '\t' := by
  obtain ⟨h1, -, -, -⟩ := plainChar_spec c h
  intro hc
  subst hc
  simp at h1

theorem pyByteEsc_plain (c : Char) (h : plainChar c = true) :
    pyByteEsc '\'' c = [c] := by
  obtain ⟨h1, h2, h3, h4⟩ := plainChar_spec c h
  have ht : c ≠ '\t' := plainChar_ne_tab c h
  have hn : c ≠ '\n' := by intro hc; subst hc; simp at h1
  have hr : c ≠ '\x0d' := by intro hc; subst hc; simp at h1
  rw [pyByteEsc, if_neg h3, if_neg h4, if_neg ht, if_neg hn, if_neg hr,
    if_pos (by simp [h1, h2])]

theorem pyByteEsc_tab : pyByteEsc '\'' '\t' = ['\\', 't'] := by decide

theorem escSelf (f : List Char) (h : ∀ c ∈ f, plainChar c = true) :
    f.flatMap (pyByteEsc '\'') = f := by
  induction f with
  | nil => rfl
  | cons c f' ih =>
    rw [List.flatMap_cons, pyByteEsc_plain c (h c (by simp)),
      ih (fun x hx => h x (by simp [hx]))]
    rfl

theorem flatMap_joinSep (fs : List (List Char))
    (h : ∀ f ∈ fs, ∀ c ∈ f, plainChar c = true) :
    (joinSep ['\t'] fs).flatMap (pyByteEsc '\'') = joinSep ['\\', 't'] fs := by
  induction fs with
  | nil => rfl
  | cons f fs' ih =>
    cases fs' with
    | nil => exact escSelf f (h f (by simp))
    | cons g fs'' =>
      have e1 : joinSep ['\t'] (f :: g :: fs'') =
          f ++ ['\t'] ++ joinSep ['\t'] (g :: fs'') := joinSep_cons _ _ _ (by simp)
      have e2 : joinSep ['\\', 't'] (f :: g :: fs'') =
          f ++ ['\\', 't'] ++ joinSep ['\\', 't'] (g :: fs'') := joinSep_cons _ _ _ (by simp)
      rw [e1, e2, List.flatMap_append, List.flatMap_append, escSelf f (h f (by simp)),
        ih (fun f' hf' => h f' (by simp [List.mem_cons] at hf' ⊢; tauto)),
        show (['\t'].flatMap (pyByteEsc '\'')) = ['\\', 't'] from by decide]

theorem joinSep_last_append (sep : List Char) (mid : List (List Char))
    (fn y : List Char) :
    joinSep sep (mid ++ [fn ++ y]) = joinSep sep (mid ++ [fn]) ++ y := by
  induction mid with
  | nil => rfl
  | cons m mid' ih =>
    rw [List.cons_append, List.cons_append,
      joinSep_cons _ _ _ (by simp), joinSep_cons _ _ _ (by simp), ih]
    simp

theorem joinSep_first_append (sep x f0 : List Char) (rest : List (List Char)) :
    joinSep sep ((x ++ f0) :: rest) = x ++ joinSep sep (f0 :: rest) := by
  cases rest with
  | nil => rfl
  | cons g rest' =>
    have e1 : joinSep sep ((x ++ f0) :: g :: rest') =
        (x ++ f0) ++ sep ++ joinSep sep (g :: rest') := joinSep_cons _ _ _ (by simp)
    have e2 : joinSep sep (f0 :: g :: rest') =
        f0 ++ sep ++ joinSep sep (g :: rest') := joinSep_cons _ _ _ (by simp)
    rw [e1, e2]
    simp

theorem delim_of_plain (f0 fn : List Char) (mid : List (List Char))
    (hplain : ∀ f ∈ f0 :: (mid ++ [fn]), ∀ c ∈ f, plainChar c = true) :
    pyBytesDelim (joinSep ['\t'] (f0 :: (mid ++ [fn]))) = '\'' := by
  rw [pyBytesDelim, if_neg]
  rintro ⟨hq, -⟩
  rcases mem_joinSep _ _ _ hq with h | ⟨g, hg, hcg⟩
  · simp at h
  · exact absurd rfl (plainChar_spec _ (hplain g hg _ hcg)).2.2.2

theorem pyStrOfBytes_plain (f0 fn : List Char) (mid : List (List Char))
    (hplain : ∀ f ∈ f0 :: (mid ++ [fn]), ∀ c ∈ f, plainChar c = true) :
    pyStrOfBytes (joinSep ['\t'] (f0 :: (mid ++ [fn]))) =
      joinSep ['\\', 't'] (('b' :: '\'' :: f0) :: (mid ++ [fn ++ ['\'']])) := by
  rw [pyStrOfBytes]
  rw [delim_of_plain f0 fn mid hplain, flatMap_joinSep _ hplain]
  have h1 : ('b' :: '\'' :: f0) :: (mid ++ [fn ++ ['\'']]) =
      ((['b', '\''] ++ f0) :: (mid ++ [fn ++ ['\'']])) := rfl
  rw [h1, joinSep_first_append]
  have h2 : (f0 :: (mid ++ [fn ++ ['\'']])) = (f0 :: mid) ++ [fn ++ ['\'']] := by simp
  have h3 : (f0 :: (mid ++ [fn])) = (f0 :: mid) ++ [fn] := by simp
  rw [h2, joinSep_last_append, ← h3]
  simp

theorem split2_pyStr_plain (f0 fn : List Char) (mid : List (List Char))
    (hplain : ∀ f ∈ f0 :: (mid ++ [fn]), ∀ c ∈ f, plainChar c = true) :
    split2 '\\' 't' (pyStrOfBytes (joinSep ['\t'] (f0 :: (mid ++ [fn])))) =
      ('b' :: '\'' :: f0) :: (mid ++ [fn ++ ['\'']]) := by
  rw [pyStrOfBytes_plain f0 fn mid hplain]
  apply split2_joinSep
  · simp
  · intro g hg c hc
    have hplain' : ∀ f ∈ f0 :: (mid ++ [fn]), ∀ x ∈ f, x ≠ '\\' := fun f hf x hx =>
      (plainChar_spec x (hplain f hf x hx)).2.2.1
    rcases List.mem_cons.mp hg with hg | hg
    · subst hg
      rcases List.mem_cons.mp hc with hc | hc
      · subst hc; decide
      · rcases List.mem_cons.mp hc with hc | hc
        · subst hc; decide
        · exact hplain' f0 (by simp) c hc
    · rcases List.mem_append.mp hg with hg | hg
      · exact hplain' g (by simp [hg]) c hc
      · have hg' : g = fn ++ ['\''] := by simpa using hg
        subst hg'
        rcases List.mem_append.mp hc with hc | hc
        · exact hplain' fn (by simp) c hc
        · have hc' : c = '\'' := by simpa using hc
          subst hc'; decide

theorem split1_joinSep_plain (fs : List (List Char)) (hne : fs ≠ [])
    (hplain : ∀ f ∈ fs, ∀ c ∈ f, plainChar c = true) :
    split1 '\t' (joinSep ['\t'] fs) = fs :=
  split1_joinSep '\t' fs hne fun g hg c hc =>
    plainChar_ne_tab c (hplain g hg c hc)

theorem getD_concat_mid (x : List Char) (mid : List (List Char)) (y : List Char)
    (d : List Char) (h : mid ≠ []) :
    (x :: (mid ++ [y])).getD mid.length d = mid.getD (mid.length - 1) d := by
  cases mid with
  | nil => exact absurd rfl h
  | cons m mid' =>
    have hlen : (m :: mid').length = mid'.length + 1 := rfl
    rw [hlen]
    have h1 : (x :: ((m :: mid') ++ [y])).getD (mid'.length + 1) d =
        ((m :: mid') ++ [y]).getD mid'.length d := rfl
    rw [h1, List.getD_eq_getElem?_getD, List.getD_eq_getElem?_getD,
      List.getElem?_append_left (by simp)]
    simp

/-! ## The `b` prefix of the repr is never numeric -/

theorem matchKw_ne_head (k : Char) (kw t : List Char) (hk : k ≠ 'b') :
    matchKw (k :: kw) ('b' :: t) = false := by
  rw [matchKw, List.map_cons, show lowerC 'b' = 'b' from by decide]
  apply beq_eq_false_iff_ne.mpr
  intro he
  injection he with h1 _
  exact hk h1.symm

theorem digitPart_nondigit (c : Char) (rest : List Char) (h : isDigitC c = false) :
    digitPart? (c :: rest) = none := by
  rw [digitPart?, if_neg (by simp [h])]

theorem parseMantissa_b (t : List Char) : parseMantissa ('b' :: t) = none := by
  rw [parseMantissa, digitPart_nondigit _ _ (by decide)]
  simp only []
  rw [if_neg (by decide)]

theorem pyFloatCore_b (t : List Char) : pyFloatCore false ('b' :: t) = none := by
  rw [pyFloatCore, matchKw_ne_head 'i' _ _ (by decide),
    matchKw_ne_head 'i' _ _ (by decide), matchKw_ne_head 'n' _ _ (by decide)]
  simp only [Bool.or_false, Bool.false_or, if_neg (by simp : ¬false = true)]
  rw [parseMantissa_b]

theorem stripWs_b (x : List Char) : ∃ t, stripWs ('b' :: x) = 'b' :: t := by
  rw [stripWs, List.dropWhile_cons, show isWsC 'b' = false from by decide]
  simp only [Bool.false_eq_true, if_false, dropTrailWs]
  cases h : dropTrailWs x with
  | nil => exact ⟨[], by rw [show (isWsC 'b') = false from by decide]; simp⟩
  | cons c cs => exact ⟨c :: cs, rfl⟩

theorem pyFloatParse_b (x : List Char) : pyFloatParse ('b' :: x) = none := by
  obtain ⟨t, ht⟩ := stripWs_b x
  rw [pyFloatParse, ht]
  simp only [if_neg (show ('b' : Char) ≠ '+' from by decide),
    if_neg (show ('b' : Char) ≠ '-' from by decide)]
  exact pyFloatCore_b t

/-! ## Characterisation of the code's parser on tab-joined plain fields -/

theorem parsePerf_plain_mid (f0 fn : List Char) (mid : List (List Char))
    (hmid : mid ≠ [])
    (hplain : ∀ f ∈ f0 :: (mid ++ [fn]), ∀ c ∈ f, plainChar c = true) :
    parsePerf (joinSep ['\t'] (f0 :: (mid ++ [fn]))) =
      match pyFloatParse (mid.getD (mid.length - 1) []) with
      | some v => Except.ok v
      | none => Except.error SimError.parseError := by
  rw [parsePerf]
  rw [split2_pyStr_plain f0 fn mid hplain]
  have hlen : (('b' :: '\'' :: f0) :: (mid ++ [fn ++ ['\'']])).length = mid.length + 2 := by
    simp
  rw [hlen, if_neg (by omega)]
  have hidx : mid.length + 2 - 2 = mid.length := by omega
  rw [hidx, getD_concat_mid _ _ _ _ hmid]

theorem parsePerf_plain_two (f0 fn : List Char)
    (hplain : ∀ f ∈ f0 :: (([] : List (List Char)) ++ [fn]), ∀ c ∈ f, plainChar c = true) :
    parsePerf (joinSep ['\t'] (f0 :: (([] : List (List Char)) ++ [fn]))) =
      Except.error SimError.parseError := by
  rw [parsePerf]
  rw [split2_pyStr_plain f0 fn [] hplain]
  simp only [List.nil_append]
  have hlen : (('b' :: '\'' :: f0) :: [fn ++ ['\'']]).length = 2 := by simp
  rw [hlen, if_neg (by omega)]
  have hfield : (('b' :: '\'' :: f0) :: [fn ++ ['\'']]).getD (2 - 2) [] = 'b' :: '\'' :: f0 := rfl
  rw [hfield, pyFloatParse_b]

theorem parsePerf_plain_one (f : List Char)
    (hplain : ∀ c ∈ f, plainChar c = true) :
    parsePerf f = Except.error SimError.parseError := by
  rw [parsePerf]
  have hd : pyBytesDelim f = '\'' := by
    rw [pyBytesDelim, if_neg]
    rintro ⟨hq, -⟩
    exact absurd rfl (plainChar_spec _ (hplain _ hq)).2.2.2
  have hs : pyStrOfBytes f = 'b' :: '\'' :: f ++ ['\''] := by
    rw [pyStrOfBytes, hd, escSelf f hplain]
  rw [hs, split2_nosep]
  · rfl
  · intro c hc
    simp only [List.cons_append, List.mem_cons, List.mem_append,
      List.mem_singleton] at hc
    rcases hc with hc | hc | hc | hc
    · subst hc; decide
    · subst hc; decide
    · exact (plainChar_spec _ (hplain _ hc)).2.2.1
    · have hc' : c = '\'' := by simpa using hc
      subst hc'; decide

theorem specParse_plain (fs : List (List Char)) (hne : fs ≠ [])
    (hplain : ∀ f ∈ fs, ∀ c ∈ f, plainChar c = true) :
    specParse (joinSep ['\t'] fs) =
      (if fs.length < 2 then Except.error SimError.parseError
       else match pyFloatParse (fs.getD (fs.length - 2) []) with
       | some v => Except.ok v
       | none => Except.error SimError.parseError) := by
  rw [specParse, split1_joinSep_plain fs hne hplain]

/-! ## Lemmas about the sweep loop -/

theorem lambdas_length : lambdas.length = 100 := by simp [lambdas]

theorem lambdas_getD (i : ℕ) (h : i < 100) :
    lambdas.getD i 0 = ((i : ℚ) + 1) * (1 / 1000) := by
  rw [List.getD_eq_getElem?_getD,
    show lambdas[i]? = some (((i : ℚ) + 1) * (1 / 1000)) from ?_]
  · rfl
  · rw [lambdas, List.getElem?_map, List.getElem?_range h]
    rfl

theorem lambdas_pairwise : List.Pairwise (· < ·) lambdas := by
  rw [lambdas, List.pairwise_map]
  refine List.Pairwise.imp ?_ (List.pairwise_lt_range 100)
  intro a b hab
  have hc : (a : ℚ) < (b : ℚ) := by exact_mod_cast hab
  have h1000 : (0 : ℚ) < 1 / 1000 := by norm_num
  exact mul_lt_mul_of_pos_right (by linarith) h1000

theorem sweepLoop_ok (sim : SimArgs → Except Unit (List Char)) (mu : ℚ) :
    ∀ (ls : List ℚ) (load : List ℚ) (perf : List PyFloat) (L : List ℚ)
      (P : List PyFloat),
      sweepLoop sim mu ls load perf = .ok (L, P) →
      L = load ++ ls.map (fun l => l / mu) ∧
      ∃ Q, P = perf ++ Q ∧ Q.length = ls.length ∧
        ∀ j, j < ls.length → ∃ out, sim (mkArgs mu (ls.getD j 0)) = .ok out ∧
          parsePerf out = .ok (Q.getD j (PyFloat.finite 0)) := by
  intro ls
  induction ls with
  | nil =>
    intro load perf L P h
    simp only [sweepLoop, Except.ok.injEq, Prod.mk.injEq] at h
    obtain ⟨hL, hP⟩ := h
    exact ⟨by simp [hL.symm], [], by simp [hP.symm], rfl, fun j hj => absurd hj (by simp)⟩
  | cons l ls ih =>
    intro load perf L P h
    cases hsim : sim (mkArgs mu l) with
    | error u => simp [sweepLoop, hsim] at h
    | ok out =>
      cases hp : parsePerf out with
      | error e => simp [sweepLoop, hsim, hp] at h
      | ok v =>
        simp only [sweepLoop, hsim, hp] at h
        obtain ⟨hL, Q, hP, hQlen, hcorr⟩ := ih (load ++ [l / mu]) (perf ++ [v]) L P h
        refine ⟨by rw [hL]; simp, v :: Q, by rw [hP]; simp, by simp [hQlen], ?_⟩
        intro j hj
        cases j with
        | zero => exact ⟨out, hsim, hp⟩
        | succ j' =>
          have hj' : j' < ls.length := by simpa using hj
          obtain ⟨out', h1, h2⟩ := hcorr j' hj'
          exact ⟨out', h1, h2⟩

theorem sweepLoop_congr (mu : ℚ) (sim sim' : SimArgs → Except Unit (List Char)) :
    ∀ (ls : List ℚ) (load : List ℚ) (perf : List PyFloat),
      (∀ l ∈ ls, sim (mkArgs mu l) = sim' (mkArgs mu l)) →
      sweepLoop sim mu ls load perf = sweepLoop sim' mu ls load perf := by
  intro ls
  induction ls with
  | nil => intro load perf _; rfl
  | cons l ls ih =>
    intro load perf h
    cases hsim : sim' (mkArgs mu l) with
    | error u => simp only [sweepLoop, h l (by simp), hsim]
    | ok out =>
      cases hp : parsePerf out with
      | error e => simp only [sweepLoop, h l (by simp), hsim, hp]
      | ok v =>
        simp only [sweepLoop, h l (by simp), hsim, hp]
        exact ih _ _ fun x hx => h x (by simp [hx])

theorem sweepLoop_app (sim : SimArgs → Except Unit (List Char)) (mu : ℚ) :
    ∀ (ls₁ ls₂ : List ℚ) (load : List ℚ) (perf : List PyFloat),
      (∀ l ∈ ls₁, ∃ out v, sim (mkArgs mu l) = .ok out ∧ parsePerf out = .ok v) →
      ∃ load' perf', sweepLoop sim mu (ls₁ ++ ls₂) load perf =
        sweepLoop sim mu ls₂ load' perf' := by
  intro ls₁
  induction ls₁ with
  | nil => intro ls₂ load perf _; exact ⟨load, perf, by simp⟩
  | cons l ls₁' ih =>
    intro ls₂ load perf h
    obtain ⟨out, v, hsim, hp⟩ := h l (by simp)
    obtain ⟨load', perf', hrec⟩ :=
      ih ls₂ (load ++ [l / mu]) (perf ++ [v]) fun x hx => h x (by simp [hx])
    refine ⟨load', perf', ?_⟩
    have e : (l :: ls₁') ++ ls₂ = l :: (ls₁' ++ ls₂) := rfl
    rw [e]
    simp only [sweepLoop, hsim, hp]
    exact hrec

theorem sweepLoop_succ (sim : SimArgs → Except Unit (List Char)) (mu : ℚ)
    (ls : List ℚ) (load : List ℚ) (perf : List PyFloat)
    (h : ∀ l ∈ ls, ∃ out v, sim (mkArgs mu l) = .ok out ∧ parsePerf out = .ok v) :
    ∃ L P, sweepLoop sim mu ls load perf = .ok (L, P) := by
  obtain ⟨load', perf', he⟩ := sweepLoop_app sim mu ls [] load perf h
  rw [List.append_nil] at he
  exact ⟨load', perf', by rw [he]; rfl⟩

theorem sweepLoop_const (sim : SimArgs → Except Unit (List Char)) (mu : ℚ)
    (out : List Char) (v : PyFloat) (hs : ∀ a, sim a = .ok out)
    (hp : parsePerf out = .ok v) :
    ∀ (ls : List ℚ) (load : List ℚ) (perf : List PyFloat),
      sweepLoop sim mu ls load perf =
        .ok (load ++ ls.map (fun l => l / mu), perf ++ List.replicate ls.length v) := by
  intro ls
  induction ls with
  | nil => intro load perf; simp [sweepLoop]
  | cons l ls ih =>
    intro load perf
    simp only [sweepLoop, hs (mkArgs mu l), hp]
    rw [ih (load ++ [l / mu]) (perf ++ [v])]
    simp [List.replicate_succ]

theorem map_pyFloatOfFloat (l : List PyFloat) : l.map pyFloatOfFloat = l :=
  List.map_id' l

theorem process_const (sim : SimArgs → Except Unit (List Char)) (mu : ℚ)
    (out : List Char) (v : PyFloat) (hs : ∀ a, sim a = .ok out)
    (hp : parsePerf out = .ok v) :
    process sim mu = .ok (lambdas.map (fun l => l / mu), List.replicate 100 v) := by
  rw [process, sweepLoop_const sim mu out v hs hp lambdas [] []]
  simp [map_pyFloatOfFloat, lambdas_length, pyFloatOfFloat]

/-! ## Helper objects for witnesses -/

theorem getD_snd_last (f0 fn : List Char) (mid : List (List Char)) (hm : mid ≠ []) :
    (f0 :: (mid ++ [fn])).getD ((f0 :: (mid ++ [fn])).length - 2) [] =
      mid.getD (mid.length - 1) [] := by
  have hlen : (f0 :: (mid ++ [fn])).length = mid.length + 2 := by simp
  rw [hlen, show mid.length + 2 - 2 = mid.length from by omega]
  exact getD_concat_mid f0 mid fn [] hm

theorem getD_map_div (l : List ℚ) (mu : ℚ) (i : ℕ) (hi : i < l.length) :
    (l.map fun x => x / mu).getD i 0 = l.getD i 0 / mu := by
  have hx : l[i]? = some l[i] := List.getElem?_eq_getElem hi
  rw [List.getD_eq_getElem?_getD, List.getElem?_map, hx, List.getD_eq_getElem?_getD, hx]
  rfl

/-- One invocation succeeds at sweep position `j` and its output parses. -/
def stepOk (sim : SimArgs → Except Unit (List Char)) (mu : ℚ) (j : ℕ) : Prop :=
  ∃ out v, sim (mkArgs mu (lambdas.getD j 0)) = .ok out ∧ parsePerf out = .ok v

/-- A well-formed simulator output with three tab-separated fields whose
second-to-last field is `2.5`. -/
def goodOut : List Char := ['a', '\t', '2', '.', '5', '\t', 'z']

/-- A simulator stub that always succeeds with `goodOut`. -/
def simGood : SimArgs → Except Unit (List Char) := fun _ => .ok goodOut

theorem parsePerf_goodOut :
    parsePerf goodOut = Except.ok (PyFloat.finite (5 / 2)) := by
  have h : parsePerf goodOut = Except.ok (PyFloat.finite
      ((((2 : ℕ) : ℚ) + ((5 : ℕ) : ℚ) / 10 ^ (1 : ℕ)) * 10 ^ (0 : ℤ))) := rfl
  rw [h, show ((((2 : ℕ) : ℚ) + ((5 : ℕ) : ℚ) / 10 ^ (1 : ℕ)) * 10 ^ (0 : ℤ)) =
    5 / 2 from by norm_num]

/-! ## The claims -/

/-- C1, counterexample to the original claim: on the raw output `"7\t8"`
(two tab-delimited fields, second-to-last field `"7"`, numeric), the spec's
described parser returns `7.0`, but the code raises (`ParseError`): the code
splits the `repr` of the captured bytes on a literal backslash-`t`, so the
`b'` prefix of the repr sticks to the first field. -/
theorem c1_counterexample :
    parsePerf ['7', '\t', '8'] = Except.error SimError.parseError ∧
    specParse ['7', '\t', '8'] = Except.ok (PyFloat.finite 7) ∧
    pyFloatParse ['7'] = some (PyFloat.finite 7) := by
  have hv : (((7 : ℕ) : ℚ) * 10 ^ (0 : ℤ)) = 7 := by norm_num
  refine ⟨rfl, ?_, ?_⟩
  · have h : specParse ['7', '\t', '8'] =
        Except.ok (PyFloat.finite (((7 : ℕ) : ℚ) * 10 ^ (0 : ℤ))) := rfl
    rw [h, hv]
  · have h : pyFloatParse ['7'] =
        some (PyFloat.finite (((7 : ℕ) : ℚ) * 10 ^ (0 : ℤ))) := rfl
    rw [h, hv]

/-- C1 (amended): on raw output consisting of at least three tab-separated
fields of plain printable characters (printable ASCII other than backslash
and single quote), the code's parser agrees with the spec's parser — it
splits on the tab character and returns the second-to-last field parsed as a
float; in particular, when the second-to-last field parses as `v`, the
result is `v`. -/
theorem c1_parser_second_to_last (f0 fn : List Char) (mid : List (List Char))
    (hmid : mid ≠ [])
    (hplain : ∀ f ∈ f0 :: (mid ++ [fn]), ∀ c ∈ f, plainChar c = true) :
    parsePerf (joinSep ['\t'] (f0 :: (mid ++ [fn]))) =
      specParse (joinSep ['\t'] (f0 :: (mid ++ [fn]))) ∧
    ∀ v, pyFloatParse (mid.getD (mid.length - 1) []) = some v →
      parsePerf (joinSep ['\t'] (f0 :: (mid ++ [fn]))) = Except.ok v := by
  have hpp := parsePerf_plain_mid f0 fn mid hmid hplain
  have hsp := specParse_plain (f0 :: (mid ++ [fn])) (by simp) hplain
  have hlen : (f0 :: (mid ++ [fn])).length = mid.length + 2 := by simp
  constructor
  · rw [hpp, hsp, if_neg (by rw [hlen]; omega), getD_snd_last f0 fn mid hmid]
  · intro v hv
    rw [hpp, hv]

/-- C1 amended, witness: `"a\tb\tc\t3.25\te"` parses to `3.25`. -/
theorem c1_parser_second_to_last_witness :
    parsePerf (joinSep ['\t']
      (['a'] :: ([['b'], ['c'], ['3', '.', '2', '5']] ++ [['e']]))) =
      Except.ok (PyFloat.finite (13 / 4)) :=
  (c1_parser_second_to_last ['a'] ['e'] [['b'], ['c'], ['3', '.', '2', '5']]
    (by decide) (by decide)).2 (PyFloat.finite (13 / 4)) (by
      show pyFloatParse ['3', '.', '2', '5'] = some (PyFloat.finite (13 / 4))
      have h : pyFloatParse ['3', '.', '2', '5'] = some (PyFloat.finite
          ((((3 : ℕ) : ℚ) + ((25 : ℕ) : ℚ) / 10 ^ (2 : ℕ)) * 10 ^ (0 : ℤ))) := rfl
      rw [h, show ((((3 : ℕ) : ℚ) + ((25 : ℕ) : ℚ) / 10 ^ (2 : ℕ)) * 10 ^ (0 : ℤ)) =
        13 / 4 from by norm_num])

/-- C2, counterexample to the original claim: the raw output
`"1\tx\x5ct2\tz"` (a literal backslash before the `t` in the middle field)
has tab-delimited fields `["1", "x\x5ct2", "z"]` with a non-numeric
second-to-last field, yet the code succeeds with `2.0` instead of failing
with `ParseError`: the backslash of the repr escape `\x5c\x5c` followed by
the byte `t` is picked up as a separator. -/
theorem c2_counterexample :
    parsePerf ['1', '\t', 'x', '\\', 't', '2', '\t', 'z'] =
      Except.ok (PyFloat.finite 2) ∧
    split1 '\t' ['1', '\t', 'x', '\\', 't', '2', '\t', 'z'] =
      [['1'], ['x', '\\', 't', '2'], ['z']] ∧
    pyFloatParse ['x', '\\', 't', '2'] = none ∧
    specParse ['1', '\t', 'x', '\\', 't', '2', '\t', 'z'] =
      Except.error SimError.parseError := by
  refine ⟨?_, rfl, rfl, rfl⟩
  have h : parsePerf ['1', '\t', 'x', '\\', 't', '2', '\t', 'z'] =
      Except.ok (PyFloat.finite (((2 : ℕ) : ℚ) * 10 ^ (0 : ℤ))) := rfl
  rw [h, show (((2 : ℕ) : ℚ) * 10 ^ (0 : ℤ)) = 2 from by norm_num]

/-- C2 (amended): on raw output made of tab-separated fields of plain
printable characters (printable ASCII other than backslash and single
quote), parsing fails with `ParseError` — and with no other error kind —
whenever fewer than two tab-delimited fields exist or the second-to-last
field is not numeric. -/
theorem c2_parse_error_on_plain (fs : List (List Char))
    (hplain : ∀ f ∈ fs, ∀ c ∈ f, plainChar c = true) :
    (fs.length < 2 →
      parsePerf (joinSep ['\t'] fs) = Except.error SimError.parseError) ∧
    (2 ≤ fs.length → pyFloatParse (fs.getD (fs.length - 2) []) = none →
      parsePerf (joinSep ['\t'] fs) = Except.error SimError.parseError) := by
  constructor
  · intro hlen
    cases fs with
    | nil => exact parsePerf_plain_one [] (by simp)
    | cons f fs' =>
      cases fs' with
      | nil => exact parsePerf_plain_one f fun c hc => hplain f (by simp) c hc
      | cons g fs'' => exact absurd hlen (by simp)
  · intro hlen hnone
    cases fs with
    | nil => simp at hlen
    | cons f0 rest =>
      rcases List.eq_nil_or_concat rest with hr | ⟨mid, fn, hr⟩
      · subst hr; simp at hlen
      · have hconcat : mid.concat fn = mid ++ [fn] := List.concat_eq_append mid fn
        subst hr
        rw [hconcat] at hplain hnone ⊢
        by_cases hm : mid = []
        · subst hm
          exact parsePerf_plain_two f0 fn (by simpa using hplain)
        · rw [parsePerf_plain_mid f0 fn mid hm hplain]
          rw [getD_snd_last f0 fn mid hm] at hnone
          rw [hnone]

/-- C2 amended, witness: `"x\ty\tabc\tz"` fails with `ParseError`. -/
theorem c2_parse_error_on_plain_witness :
    parsePerf (joinSep ['\t'] [['x'], ['y'], ['a', 'b', 'c'], ['z']]) =
      Except.error SimError.parseError :=
  (c2_parse_error_on_plain [['x'], ['y'], ['a', 'b', 'c'], ['z']]
    (by decide)).2 (by decide) (by decide)

/-- C3: at any sweep step, if the external simulator process cannot be
started or exits with a nonzero status (`subprocess.check_output` raising,
modelled by the oracle returning `.error ()`), the invocation fails with
`InvocationError` and with no other error kind. -/
theorem c3_invocation_error (sim : SimArgs → Except Unit (List Char))
    (mu l : ℚ) (ls : List ℚ) (load : List ℚ) (perf : List PyFloat)
    (h : sim (mkArgs mu l) = .error ()) :
    sweepLoop sim mu (l :: ls) load perf =
      Except.error SimError.invocationError := by
  simp only [sweepLoop, h]

/-- C3, witness. -/
theorem c3_invocation_error_witness :
    sweepLoop (fun _ => .error ()) 1 [1 / 1000] [] [] =
      Except.error SimError.invocationError :=
  c3_invocation_error (fun _ => .error ()) 1 (1 / 1000) [] [] [] rfl

/-- C4: if the first `k` invocations of a sweep succeed and the `(k+1)`-st
fails — the process errors out, or its output fails to parse — the whole
sweep for that service rate aborts with that error: no load/performance
pair of lists is returned and the samples accumulated before the failure
are discarded. -/
theorem c4_fail_fast (sim : SimArgs → Except Unit (List Char)) (mu : ℚ)
    (k : ℕ) (hk : k < 100) (hpre : ∀ j, j < k → stepOk sim mu j) :
    (sim (mkArgs mu (lambdas.getD k 0)) = .error () →
      process sim mu = Except.error SimError.invocationError) ∧
    (∀ out, sim (mkArgs mu (lambdas.getD k 0)) = .ok out →
      parsePerf out = Except.error SimError.parseError →
      process sim mu = Except.error SimError.parseError) := by
  have hk' : k < lambdas.length := by rw [lambdas_length]; exact hk
  have hgetD : lambdas.getD k 0 = lambdas[k] := by
    rw [List.getD_eq_getElem?_getD, List.getElem?_eq_getElem hk']; rfl
  have hsplit : lambdas = lambdas.take k ++ (lambdas.getD k 0 :: lambdas.drop (k + 1)) := by
    rw [hgetD]
    conv_lhs => rw [← List.take_append_drop k lambdas]
    rw [List.drop_eq_getElem_cons hk']
  have happ := sweepLoop_app sim mu (lambdas.take k)
    (lambdas.getD k 0 :: lambdas.drop (k + 1)) [] [] ?pre
  case pre =>
    intro l hl
    rw [List.mem_iff_getElem] at hl
    obtain ⟨j, hj, hlj⟩ := hl
    have hjk : j < k := by
      rw [List.length_take] at hj
      omega
    obtain ⟨out, v, h1, h2⟩ := hpre j hjk
    refine ⟨out, v, ?_, h2⟩
    have hj' : j < lambdas.length := by omega
    have hgd : lambdas.getD j 0 = l := by
      rw [List.getD_eq_getElem?_getD, List.getElem?_eq_getElem hj']
      rw [← hlj, List.getElem_take]
      rfl
    rw [← hgd]
    exact h1
  obtain ⟨load', perf', heq⟩ := happ
  constructor
  · intro herr
    have hsw : sweepLoop sim mu lambdas [] [] =
        Except.error SimError.invocationError := by
      rw [hsplit, heq]
      simp only [sweepLoop, herr]
    rw [process, hsw]
  · intro out hok hpe
    have hsw : sweepLoop sim mu lambdas [] [] =
        Except.error SimError.parseError := by
      rw [hsplit, heq]
      simp only [sweepLoop, hok, hpe]
    rw [process, hsw]

/-- C4, witness: a simulator failing at the first step aborts the sweep. -/
theorem c4_fail_fast_witness :
    process (fun _ => .error ()) 1 = Except.error SimError.invocationError :=
  (c4_fail_fast (fun _ => .error ()) 1 0 (by norm_num)
    (fun j hj => absurd hj (Nat.not_lt_zero j))).1 rfl

/-- C5: for step size `0.001` and count `100`, the `i`-th arrival rate of
the sweep (0-indexed) is `(i+1)*0.001`, the sequence is strictly
increasing, and it has exactly 100 entries. -/
theorem c5_arrival_grid :
    (∀ i, i < 100 → lambdas.getD i 0 = ((i : ℚ) + 1) * (1 / 1000)) ∧
    List.Pairwise (· < ·) lambdas ∧ lambdas.length = 100 :=
  ⟨lambdas_getD, lambdas_pairwise, lambdas_length⟩

/-- C5, witness: the 37th arrival rate (0-indexed 36) is `37 * 0.001`. -/
theorem c5_arrival_grid_witness :
    lambdas.getD 36 0 = ((36 : ℚ) + 1) * (1 / 1000) :=
  c5_arrival_grid.1 36 (by norm_num)

/-- C6: for a successful sweep at service rate `mu > 0`, each sample's load
is exactly its arrival rate divided by `mu`, the loads are strictly
increasing, and for `mu = 0.1` the loads are `(i+1)/100`, i.e. they range
from `0.01` to `1.0` in 100 equal increments. -/
theorem c6_load_values (sim : SimArgs → Except Unit (List Char)) (mu : ℚ)
    (L : List ℚ) (P : List PyFloat) (hmu : 0 < mu)
    (h : process sim mu = .ok (L, P)) :
    (∀ i, i < 100 → L.getD i 0 = lambdas.getD i 0 / mu) ∧
    List.Pairwise (· < ·) L ∧
    (mu = 1 / 10 → ∀ i, i < 100 → L.getD i 0 = ((i : ℚ) + 1) / 100) := by
  have hL : L = lambdas.map fun l => l / mu := by
    cases hs : sweepLoop sim mu lambdas [] [] with
    | error e => simp [process, hs] at h
    | ok lp =>
      obtain ⟨L0, P0⟩ := lp
      simp only [process, hs] at h
      have hinj : L0 = L ∧ P0.map pyFloatOfFloat = P := by simpa using h
      have hfull := (sweepLoop_ok sim mu lambdas [] [] L0 P0 hs).1
      rw [← hinj.1, hfull]
      simp
  subst hL
  refine ⟨?_, ?_, ?_⟩
  · intro i hi
    exact getD_map_div lambdas mu i (by rw [lambdas_length]; exact hi)
  · rw [List.pairwise_map]
    refine List.Pairwise.imp ?_ lambdas_pairwise
    intro a b hab
    exact (div_lt_div_iff_of_pos_right hmu).mpr hab
  · intro hmu10 i hi
    subst hmu10
    rw [getD_map_div lambdas _ i (by rw [lambdas_length]; exact hi),
      lambdas_getD i hi]
    ring

/-- C6, witness: with a stub simulator and `mu = 0.1`, the 10th load
(0-indexed 9) is `0.1`. -/
theorem c6_load_values_witness :
    (lambdas.map fun l => l / (1 / 10 : ℚ)).getD 9 0 = ((9 : ℚ) + 1) / 100 :=
  (c6_load_values simGood (1 / 10) (lambdas.map fun l => l / (1 / 10 : ℚ))
    (List.replicate 100 (PyFloat.finite (5 / 2))) (by norm_num)
    (process_const simGood (1 / 10) goodOut (PyFloat.finite (5 / 2))
      (fun a => rfl) parsePerf_goodOut)).2.2 rfl 9 (by norm_num)

/-- C7: a sweep in which all 100 invocations succeed and parse produces
exactly one successful result, whose load and performance lists both have
exactly 100 entries, in sweep order (the load list is the arrival-rate grid
divided by `mu`), with exactly one performance sample per invocation. -/
theorem c7_full_sweep (sim : SimArgs → Except Unit (List Char)) (mu : ℚ)
    (h : ∀ j, j < 100 → stepOk sim mu j) :
    resultOk (process sim mu) = true ∧
    ∀ L P, process sim mu = .ok (L, P) →
      L.length = 100 ∧ P.length = 100 ∧ L = lambdas.map (fun l => l / mu) ∧
      ∀ j, j < 100 → ∃ out, sim (mkArgs mu (lambdas.getD j 0)) = .ok out ∧
        parsePerf out = .ok (P.getD j (PyFloat.finite 0)) := by
  have hmem : ∀ l ∈ lambdas, ∃ out v,
      sim (mkArgs mu l) = .ok out ∧ parsePerf out = .ok v := by
    intro l hl
    rw [List.mem_iff_getElem] at hl
    obtain ⟨j, hj, hlj⟩ := hl
    have hj100 : j < 100 := by rw [lambdas_length] at hj; exact hj
    obtain ⟨out, v, h1, h2⟩ := h j hj100
    have hgd : lambdas.getD j 0 = l := by
      rw [List.getD_eq_getElem?_getD, List.getElem?_eq_getElem hj]
      simpa using hlj
    rw [hgd] at h1
    exact ⟨out, v, h1, h2⟩
  obtain ⟨L0, P0, hs⟩ := sweepLoop_succ sim mu lambdas [] [] hmem
  have hproc : process sim mu = .ok (L0, P0.map pyFloatOfFloat) := by
    simp only [process, hs]
  constructor
  · rw [hproc]; rfl
  · intro L P hLP
    rw [hproc] at hLP
    have hinj : L0 = L ∧ P0.map pyFloatOfFloat = P := by simpa using hLP
    obtain ⟨hL0, hP0⟩ := hinj
    rw [map_pyFloatOfFloat] at hP0
    obtain ⟨hL, Q, hQ, hQlen, hcorr⟩ := sweepLoop_ok sim mu lambdas [] [] L0 P0 hs
    simp only [List.nil_append] at hL hQ
    refine ⟨?_, ?_, ?_, ?_⟩
    · rw [← hL0, hL]; simp [lambdas_length]
    · rw [← hP0, hQ, hQlen, lambdas_length]
    · rw [← hL0, hL]
    · intro j hj
      have hj' : j < lambdas.length := by rw [lambdas_length]; exact hj
      obtain ⟨out, h1, h2⟩ := hcorr j hj'
      refine ⟨out, h1, ?_⟩
      rw [← hP0, hQ]
      exact h2

/-- C7, witness: a stub simulator that always answers `"a\t2.5\tz"` yields a
successful sweep. -/
theorem c7_full_sweep_witness : resultOk (process simGood 1) = true :=
  (c7_full_sweep simGood 1
    (fun _ _ => ⟨goodOut, PyFloat.finite (5 / 2), rfl, parsePerf_goodOut⟩)).1

/-- C8: every sweep step invokes the simulator with exactly the argument
record `--topo=0 --mu=<mu> --lambda=<arrival> --genType=3 --procType=0` —
`mu` and the arrival rate substituted from the current step, the three
integer identifiers held fixed — and the sweep's outcome depends on the
simulator only through its answers on exactly these records. -/
theorem c8_command_parameters (mu : ℚ) :
    (∀ i, i < 100 → (argsOf mu).getD i (mkArgs 0 0) =
      { topo := 0, mu := mu, lam := ((i : ℚ) + 1) * (1 / 1000), genType := 3,
        procType := 0 }) ∧
    (∀ sim sim' : SimArgs → Except Unit (List Char),
      (∀ l ∈ lambdas, sim (mkArgs mu l) = sim' (mkArgs mu l)) →
      process sim mu = process sim' mu) := by
  constructor
  · intro i hi
    have hi' : i < lambdas.length := by rw [lambdas_length]; exact hi
    have hval : lambdas[i] = ((i : ℚ) + 1) * (1 / 1000) := by
      have hgd := lambdas_getD i hi
      rw [List.getD_eq_getElem?_getD, List.getElem?_eq_getElem hi'] at hgd
      simpa using hgd
    rw [argsOf, List.getD_eq_getElem?_getD, List.getElem?_map,
      List.getElem?_eq_getElem hi']
    simp [hval, mkArgs]
  · intro sim sim' hagree
    rw [process, process, sweepLoop_congr mu sim sim' lambdas [] [] hagree]

/-- C8, witness: the first invocation for `mu = 1/2` carries exactly the
fixed flags and the first arrival rate. -/
theorem c8_command_parameters_witness :
    (argsOf (1 / 2)).getD 0 (mkArgs 0 0) =
      { topo := 0, mu := 1 / 2, lam := ((0 : ℚ) + 1) * (1 / 1000), genType := 3,
        procType := 0 } :=
  (c8_command_parameters (1 / 2)).1 0 (by norm_num)

/-- C9: the sequence of arrival rates presented to the simulator is the same
for any two service rates — it is the fixed constant grid `lambdas` of the
program, not a configurable input. -/
theorem c9_grid_mu_independent (mu₁ mu₂ : ℚ) :
    (argsOf mu₁).map SimArgs.lam = (argsOf mu₂).map SimArgs.lam ∧
    (argsOf mu₁).map SimArgs.lam = lambdas := by
  have hgen : ∀ mu : ℚ, (argsOf mu).map SimArgs.lam = lambdas := by
    intro mu
    rw [argsOf, List.map_map]
    have hcomp : SimArgs.lam ∘ mkArgs mu = id := by
      funext l
      rfl
    rw [hcomp, List.map_id]
  exact ⟨by rw [hgen, hgen], hgen mu₁⟩

/-- C10: the post-loop re-conversion `[float(i) for i in performance]` maps
`float` over values that already are floats, so it is the identity: the
returned result of `process` is exactly the accumulated result of the
sweep loop. -/
theorem c10_reconversion_identity (sim : SimArgs → Except Unit (List Char))
    (mu : ℚ) :
    process sim mu = sweepLoop sim mu lambdas [] [] ∧
    ∀ l : List PyFloat, l.map pyFloatOfFloat = l := by
  constructor
  · cases hs : sweepLoop sim mu lambdas [] [] with
    | error e => simp only [process, hs]
    | ok lp =>
      obtain ⟨L, P⟩ := lp
      simp only [process, hs, map_pyFloatOfFloat]
  · exact map_pyFloatOfFloat

end SchedSim
